import Mathlib

set_option maxRecDepth 8192

/-!
Shallow embedding of `src/bloomFilter/cpp/include/bloom_filter/bloom_filter.hpp`
(namespace `bloom_filter`): a Bloom filter over a 64-bit-word bit array,
with double hashing.

Modelling conventions:
- `std::size_t` (64-bit unsigned) values are modelled as `Nat`; where the C++
  arithmetic can wrap, the wrap is written explicitly as `% 2 ^ 64`.
- `double` inputs are modelled as `ℚ` (every finite double is a rational) and
  the `double` transcendental computations (`std::log`, `std::pow`, `std::ceil`)
  are modelled exactly over `ℝ` with `Real.log`.
- The two external hash primitives (`XXH64`, `MurmurHash3_x64_128`) are not part
  of this repository; per the spec they are black-box collaborators, so the
  embedding is parameterised by a `HashProvider` supplying them.
- C++ exceptions (`std::invalid_argument`) become an `Except String` result.
-/

namespace bloom_filter

/-- An element is an opaque immutable byte view (`std::span<const std::byte>`). -/
abbrev Bytes := List (Fin 256)

/-- Constant `BIT_ALIGNMENT = 64` from the source. -/
def BIT_ALIGNMENT : Nat := 64

/-- Constant `BIT_ALIGNMENT_SHIFT = 6` (log2 of 64) from the source. -/
def BIT_ALIGNMENT_SHIFT : Nat := 6

/-- Constant `BIT_ALIGNMENT_MASK = BIT_ALIGNMENT - 1 = 63` from the source. -/
def BIT_ALIGNMENT_MASK : Nat := BIT_ALIGNMENT - 1

/-- `class BitArray`: a vector of 64-bit words (`std::vector<std::uint64_t>`).
Each word is a `Nat` kept below `2 ^ 64` by the operations. -/
structure BitArray where
  words : List Nat
deriving Repr, DecidableEq

namespace BitArray

/-- Constructor `BitArray(bits)`: allocates `(bits + 63) / 64` words, all zero. -/
def ofBits (bits : Nat) : BitArray :=
  ⟨List.replicate ((bits + BIT_ALIGNMENT_MASK) / BIT_ALIGNMENT) 0⟩

/-- Method `set(i)`: `words[i >> 6] |= 1 << (i & 63)`.
The C++ indexing `words[i >> 6]` has the precondition that the index is in
range; the embedding totalises it with `getD`/`List.set` (out-of-range reads
give 0 and out-of-range writes are dropped). -/
def set (b : BitArray) (i : Nat) : BitArray :=
  ⟨b.words.set (i >>> BIT_ALIGNMENT_SHIFT)
    ((b.words.getD (i >>> BIT_ALIGNMENT_SHIFT) 0) ||| (1 <<< (i &&& BIT_ALIGNMENT_MASK)))⟩

/-- Method `test(i)`: `words[i >> 6] & (1 << (i & 63))`, converted to `bool`. -/
def test (b : BitArray) (i : Nat) : Bool :=
  (b.words.getD (i >>> BIT_ALIGNMENT_SHIFT) 0) &&& (1 <<< (i &&& BIT_ALIGNMENT_MASK)) != 0

/-- Method `size()`: `words.size() * BIT_ALIGNMENT`. -/
def size (b : BitArray) : Nat :=
  b.words.length * BIT_ALIGNMENT

end BitArray

/-- `struct HashResult { std::size_t hash1; std::size_t hash2; }`. -/
structure HashResult where
  hash1 : Nat
  hash2 : Nat
deriving Repr, DecidableEq

/-- The external hash collaborators (headers `xxhash.h` and `MurmurHash3.h`,
not part of this repository). `xxh64 bytes seed` models
`XXH64(data, size, seed)` returning a `uint64_t`; `mmh3x64128 bytes seed k`
models word `k` of the `uint32_t[4]` output of
`MurmurHash3_x64_128(data, size, seed, out)`. Both are deterministic pure
functions of the bytes and the seed. -/
structure HashProvider where
  xxh64 : Bytes → Nat → Nat
  mmh3x64128 : Bytes → Nat → Fin 4 → Nat
  xxh64_lt : ∀ b s, xxh64 b s < 2 ^ 64
  mmh3x64128_lt : ∀ b s k, mmh3x64128 b s k < 2 ^ 32

/-- Class `BloomFilter`: configuration plus the owned bit array, fields in
source order (`falsePositiveRate`, `maxElements`, `bitArray`, `hashCount`). -/
structure BloomFilter where
  falsePositiveRate : ℚ
  maxElements : Nat
  bitArray : BitArray
  hashCount : Nat
deriving Repr, DecidableEq

namespace BloomFilter

/-- Static method `calculateHashes(element)`: `hash1 = XXH64(data, size, 0)`;
`hash2 = (uint64(mmh3Hash[0]) << 32) | mmh3Hash[1]` where `mmh3Hash` is the
`uint32_t[4]` output of `MurmurHash3_x64_128(data, size, 0, mmh3Hash)`. -/
def calculateHashes (hp : HashProvider) (element : Bytes) : HashResult :=
  { hash1 := hp.xxh64 element 0
    hash2 := ((hp.mmh3x64128 element 0 0) <<< 32) ||| (hp.mmh3x64128 element 0 1) }

/-- The sequence of bit positions produced by the loop of `forEachPosition`:
for `i = 0 .. hashCount - 1`,
`position = (hashes.hash1 + (i + 1) * hashes.hash2) % bitArray.size()`,
where the sum and product are `std::size_t` (64-bit) arithmetic, hence wrap
modulo `2 ^ 64` before the reduction modulo the bit-array size. (Reducing the
whole expression once by `% 2 ^ 64` agrees with the per-operation wrap.) -/
def positionList (bf : BloomFilter) (h : HashResult) : List Nat :=
  (List.range bf.hashCount).map
    (fun i => ((h.hash1 + (i + 1) * h.hash2) % 2 ^ 64) % bf.bitArray.size)

/-- Method `add(element)`: via `forEachPosition`, calls `bitArray.set(position)`
at every derived position (the callback always returns `true`, so the loop
never exits early). -/
def add (hp : HashProvider) (bf : BloomFilter) (element : Bytes) : BloomFilter :=
  { bf with bitArray := (positionList bf (calculateHashes hp element)).foldl BitArray.set bf.bitArray }

/-- Method `contains(element)`: via `forEachPosition`, tests every derived
position, returning `false` as soon as one tested bit is unset and `true` if
all are set; `List.all` has exactly this short-circuit conjunction semantics. -/
def contains (hp : HashProvider) (bf : BloomFilter) (element : Bytes) : Bool :=
  (positionList bf (calculateHashes hp element)).all bf.bitArray.test

/-- Getter `getMaxElements()`. -/
def getMaxElements (bf : BloomFilter) : Nat := bf.maxElements

/-- Getter `getFalsePositiveRate()`. -/
def getFalsePositiveRate (bf : BloomFilter) : ℚ := bf.falsePositiveRate

/-- Getter `getBitArraySize()`: `bitArray.size()`. -/
def getBitArraySize (bf : BloomFilter) : Nat := bf.bitArray.size

/-- Getter `getHashCount()`. -/
def getHashCount (bf : BloomFilter) : Nat := bf.hashCount

/-- The value computed by the body of `calculateBitSize` once validation has
passed: `ceil(-(maxElements * log(falsePositiveRate)) / (log 2)^2)`, cast to
`std::size_t`. The `double` arithmetic is modelled exactly over `ℝ`. -/
noncomputable def bitSizeFormula (maxElements : Nat) (falsePositiveRate : ℚ) : Nat :=
  (⌈-(((maxElements : ℝ)) * Real.log ((falsePositiveRate : ℚ) : ℝ)) / (Real.log 2) ^ 2⌉).toNat

/-- Static method `calculateBitSize(maxElements, falsePositiveRate)`:
throws `std::invalid_argument` when `maxElements == 0` or when
`falsePositiveRate <= 0.0 || falsePositiveRate >= 1.0`; otherwise returns
`ceil(-(maxElements * log(falsePositiveRate)) / pow(log 2, 2))`. -/
noncomputable def calculateBitSize (maxElements : Nat) (falsePositiveRate : ℚ) :
    Except String Nat :=
  if maxElements = 0 then
    .error "maxElements must be greater than 0"
  else if falsePositiveRate ≤ 0 ∨ 1 ≤ falsePositiveRate then
    .error "falsePositiveRate must be between 0 and 1"
  else
    .ok (bitSizeFormula maxElements falsePositiveRate)

/-- Static method `calculateHashCount(maxElements, bitArraySize)`:
`ceil((double(bitArraySize) / maxElements) * log 2)`, with no argument
validation. For `maxElements = 0` the C++ divides by zero (the `double`
quotient is infinite, and the cast of its ceiling to `std::size_t` is not
defined); in the embedding `ℝ` division by zero yields `0`, so the result
degenerates to `0` there. -/
noncomputable def calculateHashCount (maxElements bitArraySize : Nat) : Nat :=
  (⌈((bitArraySize : ℝ) / (maxElements : ℝ)) * Real.log 2⌉).toNat

/-- Constructor `BloomFilter(maxElements, falsePositiveRate)`: propagates the
exception of `calculateBitSize`, allocates the bit array at the computed raw
bit count, and derives `hashCount` from the aligned size `bitArray.size()`. -/
noncomputable def construct (maxElements : Nat) (falsePositiveRate : ℚ) :
    Except String BloomFilter :=
  match calculateBitSize maxElements falsePositiveRate with
  | .error e => .error e
  | .ok bits =>
    let ba := BitArray.ofBits bits
    .ok { falsePositiveRate := falsePositiveRate
          maxElements := maxElements
          bitArray := ba
          hashCount := calculateHashCount maxElements ba.size }

/-- The bit-array size reported by a filter constructed with the given
arguments: the raw `calculateBitSize` result rounded up to a multiple of 64
by the `BitArray` word allocation. -/
noncomputable def bitCountOf (maxElements : Nat) (falsePositiveRate : ℚ) : Nat :=
  (BitArray.ofBits (bitSizeFormula maxElements falsePositiveRate)).size

end BloomFilter

/-- A degenerate but admissible hash provider (deterministic, seed-accepting,
in-range), used to instantiate theorems at concrete inputs: the 64-bit
primitive returns the all-ones word and each 32-bit output word is all ones. -/
def constHashProvider : HashProvider where
  xxh64 := fun _ _ => 2 ^ 64 - 1
  mmh3x64128 := fun _ _ _ => 2 ^ 32 - 1
  xxh64_lt := fun _ _ => by norm_num
  mmh3x64128_lt := fun _ _ _ => by norm_num

/-- The filter produced by `construct 1000 (1/100)`: 150 zero words (9600
bits) and 7 hash rounds; see `construct_1000`. -/
def filter1000 : BloomFilter :=
  { falsePositiveRate := 1/100
    maxElements := 1000
    bitArray := ⟨List.replicate 150 0⟩
    hashCount := 7 }

namespace BitArray

/-- The word index `i >> BIT_ALIGNMENT_SHIFT` is division by 64. -/
lemma shift_eq (i : Nat) : i >>> BIT_ALIGNMENT_SHIFT = i / 64 := by
  rw [show BIT_ALIGNMENT_SHIFT = 6 from rfl, Nat.shiftRight_eq_div_pow]

/-- The bit offset `i & BIT_ALIGNMENT_MASK` is the remainder modulo 64. -/
lemma mask_eq (i : Nat) : i &&& BIT_ALIGNMENT_MASK = i % 64 := by
  rw [show BIT_ALIGNMENT_MASK = 2 ^ 6 - 1 from rfl, Nat.and_pow_two_sub_one_eq_mod]

/-- Testing a single-bit mask against a word is `Nat.testBit`. -/
lemma and_two_pow_ne_zero (w k : Nat) : (w &&& 2 ^ k != 0) = w.testBit k := by
  rw [Nat.and_two_pow]
  cases h : w.testBit k <;> simp [h]

/-- `test` in terms of `Nat.testBit` on the addressed word. -/
lemma test_eq_testBit (b : BitArray) (i : Nat) :
    b.test i = (b.words.getD (i / 64) 0).testBit (i % 64) := by
  rw [test, shift_eq, mask_eq, Nat.one_shiftLeft, and_two_pow_ne_zero]

/-- Normal form of `set`, with the shift and mask spelled out. -/
lemma set_eq (b : BitArray) (i : Nat) :
    b.set i = ⟨b.words.set (i / 64) ((b.words.getD (i / 64) 0) ||| 2 ^ (i % 64))⟩ := by
  rw [set, shift_eq, mask_eq, Nat.one_shiftLeft]

/-- The words of `b.set i`, with the shift and mask spelled out. -/
lemma set_words (b : BitArray) (i : Nat) :
    (b.set i).words = b.words.set (i / 64) ((b.words.getD (i / 64) 0) ||| 2 ^ (i % 64)) := by
  rw [set_eq]

/-- Setting a bit whose word index is out of range leaves the array unchanged
(the embedding's totalisation of the C++ contract violation). -/
lemma set_out (b : BitArray) (i : Nat) (h : b.words.length ≤ i / 64) : b.set i = b := by
  rw [set_eq]
  exact congrArg BitArray.mk (List.set_eq_of_length_le h)

/-- `set` preserves the length of the word vector, hence the size. -/
lemma size_set (b : BitArray) (i : Nat) : (b.set i).size = b.size := by
  rw [size, size, set_words, List.length_set]

/-- After `set i` at an in-range index, `test i` holds. -/
lemma test_set_self (b : BitArray) (i : Nat) (h : i < b.size) :
    (b.set i).test i = true := by
  have hlen : i / 64 < b.words.length := by
    rw [size, BIT_ALIGNMENT] at h
    omega
  rw [test_eq_testBit, set_words]
  rw [show (b.words.set (i / 64) (b.words.getD (i / 64) 0 ||| 2 ^ (i % 64))).getD (i / 64) 0
        = b.words.getD (i / 64) 0 ||| 2 ^ (i % 64) by
      simp [List.getD, List.getElem?_set_self, hlen]]
  rw [Nat.testBit_or, Nat.testBit_two_pow_self]
  simp

/-- Bits only ever go from 0 to 1: `set` preserves every set bit. -/
lemma test_set_mono (b : BitArray) (i j : Nat) (h : b.test i = true) :
    (b.set j).test i = true := by
  rw [test_eq_testBit] at h
  rw [test_eq_testBit, set_words]
  by_cases hw : i / 64 = j / 64
  · by_cases hlen : j / 64 < b.words.length
    · rw [hw,
        show (b.words.set (j / 64) (b.words.getD (j / 64) 0 ||| 2 ^ (j % 64))).getD (j / 64) 0
          = b.words.getD (j / 64) 0 ||| 2 ^ (j % 64) by
          simp [List.getD, List.getElem?_set_self, hlen]]
      rw [hw] at h
      rw [Nat.testBit_or, h]
      simp
    · rw [List.set_eq_of_length_le (by omega)]
      exact h
  · rw [show (b.words.set (j / 64) (b.words.getD (j / 64) 0 ||| 2 ^ (j % 64))).getD (i / 64) 0
        = b.words.getD (i / 64) 0 by
        simp [List.getD, List.getElem?_set_ne (Ne.symm hw)]]
    exact h

/-- Setting the same bit twice is the same as setting it once. -/
lemma set_set_self (b : BitArray) (i : Nat) : (b.set i).set i = b.set i := by
  by_cases hlen : i / 64 < b.words.length
  · simp only [set_eq]
    congr 1
    rw [show (b.words.set (i / 64) (b.words.getD (i / 64) 0 ||| 2 ^ (i % 64))).getD (i / 64) 0
        = b.words.getD (i / 64) 0 ||| 2 ^ (i % 64) by
        simp [List.getD, List.getElem?_set_self, hlen]]
    rw [List.set_set, Nat.or_assoc, Nat.or_self]
  · rw [set_out b i (by omega)]
    exact set_out b i (by omega)

/-- Two `set`s commute. -/
lemma set_comm (b : BitArray) (i j : Nat) : (b.set i).set j = (b.set j).set i := by
  by_cases hw : i / 64 = j / 64
  · by_cases hlen : i / 64 < b.words.length
    · simp only [set_eq]
      congr 1
      rw [← hw]
      rw [show (b.words.set (i / 64) (b.words.getD (i / 64) 0 ||| 2 ^ (i % 64))).getD (i / 64) 0
          = b.words.getD (i / 64) 0 ||| 2 ^ (i % 64) by
          simp [List.getD, List.getElem?_set_self, hlen]]
      rw [show (b.words.set (i / 64) (b.words.getD (i / 64) 0 ||| 2 ^ (j % 64))).getD (i / 64) 0
          = b.words.getD (i / 64) 0 ||| 2 ^ (j % 64) by
          simp [List.getD, List.getElem?_set_self, hlen]]
      rw [List.set_set, List.set_set, Nat.or_assoc, Nat.or_assoc,
        Nat.or_comm (2 ^ (i % 64)) (2 ^ (j % 64))]
    · rw [set_out b i (by omega), set_out b j (by omega), set_out b i (by omega)]
  · simp only [set_eq]
    congr 1
    rw [show (b.words.set (i / 64) (b.words.getD (i / 64) 0 ||| 2 ^ (i % 64))).getD (j / 64) 0
        = b.words.getD (j / 64) 0 by
        simp [List.getD, List.getElem?_set_ne hw]]
    rw [show (b.words.set (j / 64) (b.words.getD (j / 64) 0 ||| 2 ^ (j % 64))).getD (i / 64) 0
        = b.words.getD (i / 64) 0 by
        simp [List.getD, List.getElem?_set_ne (Ne.symm hw)]]
    exact List.set_comm _ _ _ (by omega)

/-- Folding `set` over a list of positions does not change the size. -/
lemma size_foldl_set (ps : List Nat) (b : BitArray) :
    (ps.foldl BitArray.set b).size = b.size := by
  induction ps generalizing b with
  | nil => rfl
  | cons p rest ih => rw [List.foldl_cons, ih, size_set]

/-- Folding `set` preserves every set bit. -/
lemma test_foldl_set_mono (ps : List Nat) (b : BitArray) (i : Nat)
    (h : b.test i = true) : (ps.foldl BitArray.set b).test i = true := by
  induction ps generalizing b with
  | nil => exact h
  | cons p rest ih => exact ih _ (test_set_mono b i p h)

/-- After folding `set` over a list of positions, every in-range listed
position is set. -/
lemma test_foldl_set_mem (ps : List Nat) (b : BitArray) (j : Nat)
    (hj : j ∈ ps) (hlt : j < b.size) : (ps.foldl BitArray.set b).test j = true := by
  induction ps generalizing b with
  | nil => cases hj
  | cons p rest ih =>
    rw [List.foldl_cons]
    rcases List.mem_cons.mp hj with h | h
    · exact test_foldl_set_mono rest (b.set p) j (h ▸ test_set_self b j hlt)
    · exact ih (b.set p) h (by rw [size_set]; exact hlt)

/-- A single `set` commutes with a fold of `set`s. -/
lemma set_foldl_comm (ps : List Nat) (b : BitArray) (a : Nat) :
    ps.foldl BitArray.set (b.set a) = (ps.foldl BitArray.set b).set a := by
  induction ps generalizing b with
  | nil => rfl
  | cons p rest ih => rw [List.foldl_cons, List.foldl_cons, set_comm, ih]

/-- Folding the same position list twice is the same as folding it once. -/
lemma foldl_set_idem (ps : List Nat) (b : BitArray) :
    ps.foldl BitArray.set (ps.foldl BitArray.set b) = ps.foldl BitArray.set b := by
  induction ps generalizing b with
  | nil => rfl
  | cons p rest ih =>
    rw [List.foldl_cons, List.foldl_cons, ← set_foldl_comm rest (b.set p) p, set_set_self]
    exact ih (b.set p)

end BitArray

namespace BloomFilter

/-- `add` leaves the reported bit-array size unchanged. -/
lemma add_size (hp : HashProvider) (bf : BloomFilter) (x : Bytes) :
    (add hp bf x).bitArray.size = bf.bitArray.size :=
  BitArray.size_foldl_set _ _

/-- `add` leaves `hashCount` unchanged. -/
lemma add_hashCount (hp : HashProvider) (bf : BloomFilter) (x : Bytes) :
    (add hp bf x).hashCount = bf.hashCount := rfl

/-- The derived position list only depends on the filter through `hashCount`
and the bit-array size, both of which `add` preserves. -/
lemma positionList_add (hp : HashProvider) (bf : BloomFilter) (x : Bytes) (h : HashResult) :
    positionList (add hp bf x) h = positionList bf h := by
  unfold positionList
  rw [add_hashCount, add_size]

/-- With a positive bit-array size, every derived position is in range. -/
lemma positionList_mem_lt (bf : BloomFilter) (h : HashResult) (p : Nat)
    (hsz : 0 < bf.bitArray.size) (hp : p ∈ positionList bf h) : p < bf.bitArray.size := by
  rcases List.mem_map.mp hp with ⟨i, _, rfl⟩
  exact Nat.mod_lt _ hsz

/-- The position list has `hashCount` entries. -/
lemma positionList_length (bf : BloomFilter) (h : HashResult) :
    (positionList bf h).length = bf.hashCount := by
  rw [positionList, List.length_map, List.length_range]

/-- Right after `add`, every position derived for the added element is set. -/
lemma add_sets_positions (hp : HashProvider) (bf : BloomFilter) (x : Bytes) (j : Nat)
    (hsz : 0 < bf.bitArray.size) (hj : j ∈ positionList bf (calculateHashes hp x)) :
    (add hp bf x).bitArray.test j = true :=
  BitArray.test_foldl_set_mem _ _ _ hj (positionList_mem_lt bf _ j hsz hj)

/-- `add` preserves every set bit of the bit array. -/
lemma add_test_mono (hp : HashProvider) (bf : BloomFilter) (x : Bytes) (j : Nat)
    (h : bf.bitArray.test j = true) : (add hp bf x).bitArray.test j = true :=
  BitArray.test_foldl_set_mono _ _ _ h

end BloomFilter

/-- The size of a freshly allocated bit array, in closed form. -/
lemma BitArray.ofBits_size (bits : Nat) :
    (BitArray.ofBits bits).size = ((bits + 63) / 64) * 64 := by
  rw [BitArray.ofBits, BitArray.size, List.length_replicate]
  rfl

/-- A freshly allocated bit array has every bit unset. -/
lemma BitArray.test_replicate_zero (n i : Nat) :
    (BitArray.mk (List.replicate n 0)).test i = false := by
  rw [BitArray.test_eq_testBit]
  have hz : (List.replicate n (0 : Nat)).getD (i / 64) 0 = 0 := by
    rcases lt_or_ge (i / 64) n with h | h
    · simp [List.getD, List.getElem?_replicate, h]
    · rw [List.getD_eq_default]
      rw [List.length_replicate]
      omega
  rw [hz, Nat.zero_testBit]

/-- A freshly allocated bit array has every bit unset (via `ofBits`). -/
lemma BitArray.test_ofBits (bits i : Nat) : (BitArray.ofBits bits).test i = false :=
  BitArray.test_replicate_zero _ _

namespace BloomFilter

/-- Valid arguments run the constructor to completion, with the fields it
computes. -/
lemma construct_ok (n : Nat) (p : ℚ) (hn : n ≠ 0) (h0 : 0 < p) (h1 : p < 1) :
    construct n p = .ok
      { falsePositiveRate := p
        maxElements := n
        bitArray := BitArray.ofBits (bitSizeFormula n p)
        hashCount := calculateHashCount n (BitArray.ofBits (bitSizeFormula n p)).size } := by
  rw [construct, calculateBitSize, if_neg hn,
    if_neg (by push_neg; exact ⟨h0, h1⟩)]

/-- Inversion: a successful construction implies the arguments were valid and
determines every field of the result. -/
lemma construct_ok_inv (n : Nat) (p : ℚ) (bf : BloomFilter)
    (h : construct n p = .ok bf) :
    n ≠ 0 ∧ 0 < p ∧ p < 1 ∧
      bf = { falsePositiveRate := p
             maxElements := n
             bitArray := BitArray.ofBits (bitSizeFormula n p)
             hashCount := calculateHashCount n (BitArray.ofBits (bitSizeFormula n p)).size } := by
  by_cases hn : n = 0
  · rw [construct, calculateBitSize, if_pos hn] at h
    simp at h
  · by_cases hv : p ≤ 0 ∨ 1 ≤ p
    · rw [construct, calculateBitSize, if_neg hn, if_pos hv] at h
      simp at h
    · push_neg at hv
      rw [construct_ok n p hn hv.1 hv.2] at h
      injection h with h'
      exact ⟨hn, hv.1, hv.2, h'.symm⟩

/-- Invalid arguments make the constructor fail. -/
lemma construct_error (n : Nat) (p : ℚ) (h : n = 0 ∨ p ≤ 0 ∨ 1 ≤ p) :
    ∃ e, construct n p = .error e := by
  by_cases hn : n = 0
  · exact ⟨_, by rw [construct, calculateBitSize, if_pos hn]⟩
  · have hv : p ≤ 0 ∨ 1 ≤ p := by tauto
    exact ⟨_, by rw [construct, calculateBitSize, if_neg hn, if_pos hv]⟩

/-- With valid arguments the raw bit count is at least 1 (the real value of
the sizing formula is strictly positive). -/
lemma bitSizeFormula_pos (n : Nat) (p : ℚ) (hn : n ≠ 0) (h0 : 0 < p) (h1 : p < 1) :
    1 ≤ bitSizeFormula n p := by
  rw [bitSizeFormula]
  have hlog : Real.log ((p : ℚ) : ℝ) < 0 :=
    Real.log_neg (by exact_mod_cast h0) (by exact_mod_cast h1)
  have hl2 : 0 < Real.log 2 := Real.log_pos (by norm_num)
  have hn' : 0 < (n : ℝ) := by exact_mod_cast Nat.pos_of_ne_zero hn
  have hval : 0 < -(((n : ℝ)) * Real.log ((p : ℚ) : ℝ)) / (Real.log 2) ^ 2 :=
    div_pos (by nlinarith) (pow_pos hl2 2)
  have := Int.ceil_pos.mpr hval
  omega

/-- With a nonzero element bound and a nonzero bit-array size the derived
hash count is at least 1. -/
lemma calculateHashCount_pos (n m : Nat) (hn : n ≠ 0) (hm : 0 < m) :
    1 ≤ calculateHashCount n m := by
  rw [calculateHashCount]
  have hval : 0 < ((m : ℝ) / (n : ℝ)) * Real.log 2 :=
    mul_pos
      (div_pos (by exact_mod_cast hm) (by exact_mod_cast Nat.pos_of_ne_zero hn))
      (Real.log_pos (by norm_num))
  have := Int.ceil_pos.mpr hval
  omega

/-- At `maxElements = 0` the (unvalidated) hash-count formula degenerates:
the embedded total division by zero gives 0. -/
lemma calculateHashCount_zero (m : Nat) : calculateHashCount 0 m = 0 := by
  rw [calculateHashCount]
  norm_num

/-- A positive requested bit count yields at least one word, i.e. at least
64 bits of storage. -/
lemma size_ofBits_ge (bits : Nat) (h : 1 ≤ bits) : 64 ≤ (BitArray.ofBits bits).size := by
  rw [BitArray.ofBits_size]
  omega

/-- The reported bit-array size is always a multiple of 64. -/
lemma size_ofBits_mod (bits : Nat) : (BitArray.ofBits bits).size % 64 = 0 := by
  rw [BitArray.ofBits_size]
  omega

end BloomFilter

/-- Certified rational bounds on `log (128/125) = log 1.024`, from the Taylor
remainder estimate at order 2. -/
lemma log_128_125_bounds :
    (45174/1906250 : ℝ) ≤ Real.log (128/125) ∧ Real.log (128/125) ≤ (45228/1906250 : ℝ) := by
  have h := Real.abs_log_sub_add_sum_range_le
    (show |(-(3/125) : ℝ)| < 1 by
      rw [abs_neg, abs_of_nonneg (by norm_num : (0:ℝ) ≤ 3/125)]
      norm_num) 2
  have hsum : (∑ i ∈ Finset.range 2, (-(3/125) : ℝ) ^ (i + 1) / (i + 1)) = -741/31250 := by
    rw [Finset.sum_range_succ, Finset.sum_range_succ, Finset.sum_range_zero]
    norm_num
  have harg : (1 : ℝ) - -(3/125) = 128/125 := by norm_num
  have habs : |(-(3/125) : ℝ)| = 3/125 := by
    rw [abs_neg, abs_of_nonneg (by norm_num : (0:ℝ) ≤ 3/125)]
  rw [hsum, harg, habs] at h
  have h' := abs_le.mp h
  have h1 := h'.1
  have h2 := h'.2
  norm_num at h1 h2
  constructor <;> linarith

/-- Certified decimal bounds on `log 10`, via `1024 = 2^10` and the bounds on
`log 2` and `log 1.024`. -/
lemma log_ten_bounds : (2.3025818 : ℝ) < Real.log 10 ∧ Real.log 10 < (2.3025915 : ℝ) := by
  have h128 : Real.log (128/125) = 10 * Real.log 2 - 3 * Real.log 10 := by
    rw [show (128/125 : ℝ) = 2 ^ 10 / 10 ^ 3 by norm_num]
    rw [Real.log_div (by positivity) (by positivity), Real.log_pow, Real.log_pow]
    push_cast
    ring
  have hb := log_128_125_bounds
  have h2a := Real.log_two_gt_d9
  have h2b := Real.log_two_lt_d9
  constructor
  · nlinarith [hb.1, hb.2]
  · nlinarith [hb.1, hb.2]

namespace BloomFilter

/-- The raw sizing formula at capacity 1000 and rate 1/100 evaluates to
exactly 9586: the real value `2000 log 10 / (log 2)^2` lies in (9585, 9586]. -/
lemma bitSizeFormula_1000 : bitSizeFormula 1000 (1/100) = 9586 := by
  rw [bitSizeFormula]
  have hlog : Real.log (((1/100 : ℚ) : ℚ) : ℝ) = -(2 * Real.log 10) := by
    rw [show (((1/100 : ℚ) : ℚ) : ℝ) = ((10 : ℝ) ^ 2)⁻¹ by norm_num, Real.log_inv, Real.log_pow]
    push_cast
    ring
  rw [hlog]
  have hE : -(((1000 : Nat) : ℝ) * -(2 * Real.log 10)) / (Real.log 2) ^ 2
      = 2000 * Real.log 10 / (Real.log 2) ^ 2 := by
    push_cast
    ring
  rw [hE]
  have h10 := log_ten_bounds
  have h2a := Real.log_two_gt_d9
  have h2b := Real.log_two_lt_d9
  have hl2 : 0 < Real.log 2 := Real.log_pos (by norm_num)
  have hceil : ⌈2000 * Real.log 10 / (Real.log 2) ^ 2⌉ = (9586 : ℤ) := by
    rw [Int.ceil_eq_iff]
    constructor
    · rw [show ((9586 : ℤ) : ℝ) - 1 = 9585 by norm_num, lt_div_iff₀ (pow_pos hl2 2)]
      nlinarith [h10.1, h10.2]
    · rw [show ((9586 : ℤ) : ℝ) = 9586 by norm_num, div_le_iff₀ (pow_pos hl2 2)]
      nlinarith [h10.1, h10.2]
  rw [hceil]
  rfl

/-- The hash-count formula at 1000 elements and 9600 bits evaluates to 7:
`9.6 log 2` lies in (6, 7]. -/
lemma calculateHashCount_1000_9600 : calculateHashCount 1000 9600 = 7 := by
  rw [calculateHashCount]
  have hE : (((9600 : Nat) : ℝ) / ((1000 : Nat) : ℝ)) * Real.log 2 = (48/5) * Real.log 2 := by
    push_cast
    ring
  rw [hE]
  have h2a := Real.log_two_gt_d9
  have h2b := Real.log_two_lt_d9
  have hceil : ⌈(48/5 : ℝ) * Real.log 2⌉ = (7 : ℤ) := by
    rw [Int.ceil_eq_iff]
    constructor
    · rw [show ((7 : ℤ) : ℝ) - 1 = 6 by norm_num]
      linarith
    · rw [show ((7 : ℤ) : ℝ) = 7 by norm_num]
      linarith
  rw [hceil]
  rfl

/-- Construction at capacity 1000 and rate 1/100 yields exactly `filter1000`. -/
lemma construct_1000 : construct 1000 (1/100) = .ok filter1000 := by
  rw [construct_ok 1000 (1/100) (by norm_num) (by norm_num) (by norm_num), bitSizeFormula_1000]
  rw [show BitArray.ofBits 9586 = ⟨List.replicate 150 0⟩ from rfl]
  rw [show (BitArray.mk (List.replicate 150 0)).size = 9600 from by
    rw [BitArray.size, List.length_replicate]
    rfl]
  rw [calculateHashCount_1000_9600]
  rfl

/-- The raw sizing formula is monotone in the capacity. -/
lemma bitSizeFormula_mono_capacity (n n' : Nat) (p : ℚ) (h0 : 0 < p) (h1 : p < 1)
    (h : n ≤ n') : bitSizeFormula n p ≤ bitSizeFormula n' p := by
  rw [bitSizeFormula, bitSizeFormula]
  apply Int.toNat_le_toNat
  apply Int.ceil_le_ceil
  have hlog : Real.log ((p : ℚ) : ℝ) < 0 :=
    Real.log_neg (by exact_mod_cast h0) (by exact_mod_cast h1)
  have hl2 : 0 < (Real.log 2) ^ 2 := pow_pos (Real.log_pos (by norm_num)) 2
  have hn : (n : ℝ) ≤ (n' : ℝ) := by exact_mod_cast h
  have hnum : -((n : ℝ) * Real.log ((p : ℚ) : ℝ)) ≤ -((n' : ℝ) * Real.log ((p : ℚ) : ℝ)) := by
    nlinarith
  exact div_le_div_of_nonneg_right hnum hl2.le |>.trans_eq rfl

/-- The raw sizing formula is antitone in the false-positive rate. -/
lemma bitSizeFormula_anti_rate (n : Nat) (p p' : ℚ) (h0' : 0 < p') (hle : p' ≤ p) :
    bitSizeFormula n p ≤ bitSizeFormula n p' := by
  rw [bitSizeFormula, bitSizeFormula]
  apply Int.toNat_le_toNat
  apply Int.ceil_le_ceil
  have hlog : Real.log ((p' : ℚ) : ℝ) ≤ Real.log ((p : ℚ) : ℝ) :=
    Real.log_le_log (by exact_mod_cast h0') (by exact_mod_cast hle)
  have hl2 : 0 < (Real.log 2) ^ 2 := pow_pos (Real.log_pos (by norm_num)) 2
  have hn : (0 : ℝ) ≤ (n : ℝ) := Nat.cast_nonneg n
  have hnum : -((n : ℝ) * Real.log ((p : ℚ) : ℝ)) ≤ -((n : ℝ) * Real.log ((p' : ℚ) : ℝ)) := by
    nlinarith
  exact div_le_div_of_nonneg_right hnum hl2.le |>.trans_eq rfl

/-- Word-rounding is monotone, hence so is the reported bit count. -/
lemma ofBits_size_mono (s s' : Nat) (h : s ≤ s') :
    (BitArray.ofBits s).size ≤ (BitArray.ofBits s').size := by
  rw [BitArray.ofBits_size, BitArray.ofBits_size]
  have := Nat.div_le_div_right (c := 64) (Nat.add_le_add_right h 63)
  omega

/-- The bit-array size of any successfully constructed filter is `bitCountOf`. -/
lemma construct_size (n : Nat) (p : ℚ) (bf : BloomFilter)
    (h : construct n p = .ok bf) : bf.bitArray.size = bitCountOf n p := by
  obtain ⟨-, -, -, hbf⟩ := construct_ok_inv n p bf h
  rw [hbf]
  rfl

/-- Folding `add` over a list of elements never changes the bit-array size. -/
lemma foldl_add_size (hp : HashProvider) (ys : List Bytes) (bf : BloomFilter) :
    (ys.foldl (add hp) bf).bitArray.size = bf.bitArray.size := by
  induction ys generalizing bf with
  | nil => rfl
  | cons y rest ih => rw [List.foldl_cons, ih, add_size]

/-- Folding `add` over a list of elements never changes `hashCount`. -/
lemma foldl_add_hashCount (hp : HashProvider) (ys : List Bytes) (bf : BloomFilter) :
    (ys.foldl (add hp) bf).hashCount = bf.hashCount := by
  induction ys generalizing bf with
  | nil => rfl
  | cons y rest ih => rw [List.foldl_cons, ih, add_hashCount]

/-- Folding `add` preserves every set bit. -/
lemma foldl_add_test_mono (hp : HashProvider) (ys : List Bytes) (bf : BloomFilter)
    (j : Nat) (h : bf.bitArray.test j = true) :
    (ys.foldl (add hp) bf).bitArray.test j = true := by
  induction ys generalizing bf with
  | nil => exact h
  | cons y rest ih => exact ih (add hp bf y) (add_test_mono hp bf y j h)

/-- C1: no false negatives — for every hash provider, every byte sequence `x`,
every starting filter state with positive bit-array size, and every sequence
of prior and subsequent `add` calls on arbitrary elements, after `add x` the
query `contains x` returns `true`. -/
theorem add_no_false_negatives (hp : HashProvider) (bf : BloomFilter) (x : Bytes)
    (pre post : List Bytes) (hsz : 0 < bf.bitArray.size) :
    contains hp (post.foldl (add hp) (add hp (pre.foldl (add hp) bf) x)) x = true := by
  have hsz1 : 0 < (pre.foldl (add hp) bf).bitArray.size := by
    rw [foldl_add_size]
    exact hsz
  rw [contains]
  have hsame : positionList (post.foldl (add hp) (add hp (pre.foldl (add hp) bf) x))
        (calculateHashes hp x)
      = positionList (pre.foldl (add hp) bf) (calculateHashes hp x) := by
    rw [positionList, positionList, foldl_add_hashCount, foldl_add_size,
      add_hashCount, add_size]
  rw [hsame, List.all_eq_true]
  intro j hj
  exact foldl_add_test_mono hp post _ j (add_sets_positions hp _ x j hsz1 hj)

/-- Witness for C1 at a concrete provider, filter and element. -/
theorem add_no_false_negatives_witness :
    0 < filter1000.bitArray.size ∧
    contains constHashProvider
      (List.foldl (add constHashProvider)
        (add constHashProvider (List.foldl (add constHashProvider) filter1000 []) []) [])
      [] = true :=
  ⟨by decide, add_no_false_negatives constHashProvider filter1000 [] [] [] (by decide)⟩

/-- C2: construction fails with an invalid-argument error exactly when
`capacity = 0` or the rate is outside the open interval (0, 1); it succeeds
otherwise; in particular capacity 0 or rates 0, 1, 3/2, -1/100 all fail. -/
theorem construct_validation :
    (∀ (n : Nat) (p : ℚ), (∃ e, construct n p = Except.error e) ↔ (n = 0 ∨ p ≤ 0 ∨ 1 ≤ p))
    ∧ (∀ (n : Nat) (p : ℚ), n ≠ 0 → 0 < p → p < 1 → ∃ bf, construct n p = Except.ok bf)
    ∧ (∃ e, construct 0 (1/100) = Except.error e)
    ∧ (∃ e, construct 100 0 = Except.error e)
    ∧ (∃ e, construct 100 1 = Except.error e)
    ∧ (∃ e, construct 100 (3/2) = Except.error e)
    ∧ (∃ e, construct 100 (-(1/100)) = Except.error e) := by
  have hiff : ∀ (n : Nat) (p : ℚ),
      (∃ e, construct n p = Except.error e) ↔ (n = 0 ∨ p ≤ 0 ∨ 1 ≤ p) := by
    intro n p
    constructor
    · rintro ⟨e, he⟩
      by_contra hv
      push_neg at hv
      obtain ⟨hn, h0, h1⟩ := hv
      rw [construct_ok n p hn h0 h1] at he
      simp at he
    · exact construct_error n p
  refine ⟨hiff, fun n p hn h0 h1 => ⟨_, construct_ok n p hn h0 h1⟩,
    (hiff 0 (1/100)).mpr (Or.inl rfl),
    (hiff 100 0).mpr (Or.inr (Or.inl (by norm_num))),
    (hiff 100 1).mpr (Or.inr (Or.inr (by norm_num))),
    (hiff 100 (3/2)).mpr (Or.inr (Or.inr (by norm_num))),
    (hiff 100 (-(1/100))).mpr (Or.inr (Or.inl (by norm_num)))⟩

/-- Witness for C2 at concrete valid arguments. -/
theorem construct_validation_witness :
    (1000 ≠ 0 ∧ (0 : ℚ) < 1/100 ∧ (1/100 : ℚ) < 1)
    ∧ (∃ bf, construct 1000 (1/100) = Except.ok bf) :=
  ⟨⟨by norm_num, by norm_num, by norm_num⟩,
    construct_validation.2.1 1000 (1/100) (by norm_num) (by norm_num) (by norm_num)⟩

/-- C3: formula exactness — `calculateBitSize 1000 (1/100)` is exactly 9586,
rounding 9586 up to the next multiple of 64 gives 9600, the constructed
filter reports a bit count of 9600, and the hash-round count
`ceil((9600/1000) log 2)` is exactly 7. -/
theorem formula_exactness :
    calculateBitSize 1000 (1/100) = Except.ok 9586
    ∧ (BitArray.ofBits 9586).size = 9600
    ∧ construct 1000 (1/100) = Except.ok filter1000
    ∧ filter1000.getBitArraySize = 9600
    ∧ calculateHashCount 1000 9600 = 7
    ∧ filter1000.getHashCount = 7 := by
  refine ⟨?_, by decide, construct_1000, by decide, calculateHashCount_1000_9600, rfl⟩
  rw [calculateBitSize, if_neg (by norm_num), if_neg (by norm_num), bitSizeFormula_1000]

/-- C4 (as stated) is false: with the all-ones 64-bit base hashes, round 1 on
the capacity-1000 filter touches bit `((h1 + h2) mod 2^64) mod 9600 = 6014`,
while the claimed exact-integer formula `(h1 + 1*h2) mod 9600` gives 2430. -/
theorem position_formula_counterexample :
    construct 1000 (1/100) = Except.ok filter1000
    ∧ (positionList filter1000 (calculateHashes constHashProvider [])).get? 0 = some 6014
    ∧ ((calculateHashes constHashProvider []).hash1
        + 1 * (calculateHashes constHashProvider []).hash2)
        % filter1000.bitArray.size = 2430
    ∧ (6014 : Nat) ≠ 2430 :=
  ⟨construct_1000, by decide, by decide, by decide⟩

/-- C4 (amended): the bit position touched in round `j` (for `1 ≤ j ≤`
`hashRounds`) is `((h1 + j * h2) mod 2^64) mod bitCount` — the double-hashing
formula computed in wrapping 64-bit arithmetic before the reduction modulo
the bit count. -/
theorem position_formula_amended (hp : HashProvider) (bf : BloomFilter) (x : Bytes)
    (j : Nat) (hj1 : 1 ≤ j) (hj2 : j ≤ bf.hashCount) :
    (positionList bf (calculateHashes hp x)).get? (j - 1)
      = some ((((calculateHashes hp x).hash1 + j * (calculateHashes hp x).hash2) % 2 ^ 64)
          % bf.bitArray.size) := by
  rw [positionList, List.get?_map, List.get?_range (by omega)]
  simp only [Option.map_some']
  rw [show j - 1 + 1 = j from by omega]

/-- Witness for the amended C4 at round 1 on a concrete filter. -/
theorem position_formula_amended_witness :
    1 ≤ 1 ∧ 1 ≤ filter1000.hashCount ∧
    (positionList filter1000 (calculateHashes constHashProvider [])).get? 0
      = some ((((calculateHashes constHashProvider []).hash1
          + 1 * (calculateHashes constHashProvider []).hash2) % 2 ^ 64)
          % filter1000.bitArray.size) :=
  ⟨by decide, by decide,
    position_formula_amended constHashProvider filter1000 [] 1 (by decide) (by decide)⟩

/-- C5: empty-filter baseline — any freshly constructed filter answers
`false` to every `contains` query, for every provider and byte sequence
(including the empty one). -/
theorem fresh_contains_false (n : Nat) (p : ℚ) (bf : BloomFilter) (hp : HashProvider)
    (x : Bytes) (hok : construct n p = Except.ok bf) : contains hp bf x = false := by
  obtain ⟨hn, h0, h1, hbf⟩ := construct_ok_inv n p bf hok
  have hraw := bitSizeFormula_pos n p hn h0 h1
  have hc : 1 ≤ bf.hashCount := by
    rw [hbf]
    exact calculateHashCount_pos _ _ hn
      (by have := size_ofBits_ge _ hraw; omega)
  have hba : bf.bitArray = BitArray.ofBits (bitSizeFormula n p) := by rw [hbf]
  rw [contains]
  have hlen : 0 < (positionList bf (calculateHashes hp x)).length := by
    rw [positionList_length]
    omega
  rcases hpl : positionList bf (calculateHashes hp x) with _ | ⟨a, t⟩
  · rw [hpl] at hlen
    simp at hlen
  · rw [List.all_cons, hba, BitArray.test_ofBits]
    rfl

/-- Witness for C5 on the concrete constructed filter. -/
theorem fresh_contains_false_witness :
    construct 1000 (1/100) = Except.ok filter1000
    ∧ contains constHashProvider filter1000 [] = false :=
  ⟨construct_1000,
    fresh_contains_false 1000 (1/100) filter1000 constHashProvider [] construct_1000⟩

/-- C6: idempotence of `add` — adding the same element twice leaves exactly
the state (including the observable bit array) of a single `add`, in every
filter state and for every provider. -/
theorem add_idempotent (hp : HashProvider) (bf : BloomFilter) (x : Bytes) :
    add hp (add hp bf x) x = add hp bf x := by
  have hps := positionList_add hp bf x (calculateHashes hp x)
  show { add hp bf x with
      bitArray := (positionList (add hp bf x) (calculateHashes hp x)).foldl
        BitArray.set (add hp bf x).bitArray } = add hp bf x
  rw [hps]
  show { add hp bf x with
      bitArray := (positionList bf (calculateHashes hp x)).foldl BitArray.set
        ((positionList bf (calculateHashes hp x)).foldl BitArray.set bf.bitArray) }
    = add hp bf x
  rw [BitArray.foldl_set_idem]
  rfl

/-- C7: monotonic sizing — the constructed filter's reported bit count is
`bitCountOf`, which never decreases when the capacity grows at a fixed rate,
and never decreases when the rate shrinks at a fixed capacity. -/
theorem monotonic_sizing :
    (∀ (n : Nat) (p : ℚ) (bf : BloomFilter),
      construct n p = Except.ok bf → bf.bitArray.size = bitCountOf n p)
    ∧ (∀ (n n' : Nat) (p : ℚ), 0 < p → p < 1 → n ≤ n' →
        bitCountOf n p ≤ bitCountOf n' p)
    ∧ (∀ (n : Nat) (p p' : ℚ), 0 < p' → p' ≤ p → p < 1 →
        bitCountOf n p ≤ bitCountOf n p') :=
  ⟨construct_size,
    fun n n' p h0 h1 h =>
      ofBits_size_mono _ _ (bitSizeFormula_mono_capacity n n' p h0 h1 h),
    fun n p p' h0' hle _h1 =>
      ofBits_size_mono _ _ (bitSizeFormula_anti_rate n p p' h0' hle)⟩

/-- Witness for C7 on concrete capacities and rates. -/
theorem monotonic_sizing_witness :
    (construct 1000 (1/100) = Except.ok filter1000
      ∧ filter1000.bitArray.size = bitCountOf 1000 (1/100))
    ∧ ((0 : ℚ) < 1/100 ∧ (1/100 : ℚ) < 1 ∧ (100 : Nat) ≤ 1000
      ∧ bitCountOf 100 (1/100) ≤ bitCountOf 1000 (1/100))
    ∧ ((0 : ℚ) < 1/1000 ∧ (1/1000 : ℚ) ≤ 1/100 ∧ (1/100 : ℚ) < 1
      ∧ bitCountOf 100 (1/100) ≤ bitCountOf 100 (1/1000)) :=
  ⟨⟨construct_1000, monotonic_sizing.1 1000 (1/100) filter1000 construct_1000⟩,
    ⟨by norm_num, by norm_num, by norm_num,
      monotonic_sizing.2.1 100 1000 (1/100) (by norm_num) (by norm_num) (by norm_num)⟩,
    ⟨by norm_num, by norm_num, by norm_num,
      monotonic_sizing.2.2 100 (1/100) (1/1000) (by norm_num) (by norm_num) (by norm_num)⟩⟩

/-- C8: construction invariants — every successfully constructed filter has a
positive, 64-aligned bit count and at least one hash round, and `add` (the
only mutating operation) preserves the bit count and hash-round count of any
filter. -/
theorem construct_invariants (n : Nat) (p : ℚ) (bf : BloomFilter)
    (hok : construct n p = Except.ok bf) :
    (0 < bf.bitArray.size ∧ bf.bitArray.size % 64 = 0 ∧ 1 ≤ bf.hashCount)
    ∧ ∀ (bf' : BloomFilter) (hp : HashProvider) (x : Bytes),
        (add hp bf' x).bitArray.size = bf'.bitArray.size
        ∧ (add hp bf' x).hashCount = bf'.hashCount := by
  obtain ⟨hn, h0, h1, hbf⟩ := construct_ok_inv n p bf hok
  have hraw := bitSizeFormula_pos n p hn h0 h1
  have hge := size_ofBits_ge _ hraw
  refine ⟨⟨?_, ?_, ?_⟩, fun bf' hp x => ⟨add_size hp bf' x, add_hashCount hp bf' x⟩⟩
  · rw [hbf]
    show 0 < (BitArray.ofBits (bitSizeFormula n p)).size
    omega
  · rw [hbf]
    show (BitArray.ofBits (bitSizeFormula n p)).size % 64 = 0
    exact size_ofBits_mod _
  · rw [hbf]
    show 1 ≤ calculateHashCount n (BitArray.ofBits (bitSizeFormula n p)).size
    exact calculateHashCount_pos _ _ hn (by omega)

/-- Witness for C8 on the concrete constructed filter. -/
theorem construct_invariants_witness :
    construct 1000 (1/100) = Except.ok filter1000
    ∧ (0 < filter1000.bitArray.size ∧ filter1000.bitArray.size % 64 = 0
        ∧ 1 ≤ filter1000.hashCount) :=
  ⟨construct_1000,
    (construct_invariants 1000 (1/100) filter1000 construct_1000).1⟩

/-- C9: in-range indexing — on any successfully constructed filter, every
position that `add` or `contains` passes to the bit array (an entry of the
derived position list) is strictly below the bit count, so the out-of-range
branch of the bit array is unreachable through the public operations. -/
theorem positions_in_range (n : Nat) (p : ℚ) (bf : BloomFilter) (hp : HashProvider)
    (x : Bytes) (pos : Nat) (hok : construct n p = Except.ok bf)
    (hmem : pos ∈ positionList bf (calculateHashes hp x)) : pos < bf.bitArray.size := by
  obtain ⟨hn, h0, h1, hbf⟩ := construct_ok_inv n p bf hok
  have hraw := bitSizeFormula_pos n p hn h0 h1
  have hge := size_ofBits_ge _ hraw
  have hsz : 0 < bf.bitArray.size := by
    rw [hbf]
    show 0 < (BitArray.ofBits (bitSizeFormula n p)).size
    omega
  exact positionList_mem_lt bf _ pos hsz hmem

/-- Witness for C9 at a concrete derived position. -/
theorem positions_in_range_witness :
    construct 1000 (1/100) = Except.ok filter1000
    ∧ 6014 ∈ positionList filter1000 (calculateHashes constHashProvider [])
    ∧ 6014 < filter1000.bitArray.size :=
  ⟨construct_1000, by decide,
    positions_in_range 1000 (1/100) filter1000 constHashProvider [] 6014
      construct_1000 (by decide)⟩

/-- C10: `calculateHashCount` performs no argument validation — at
`maxElements = 0` it returns the degenerate value produced by the division by
zero instead of an invalid-argument error (unlike `calculateBitSize`, which
rejects 0), and it is meaningful (at least 1) exactly under the precondition
`maxElements > 0` (with a nonzero bit-array size). -/
theorem calculateHashCount_no_validation :
    (∀ m, calculateHashCount 0 m = 0)
    ∧ (∀ p : ℚ, ∃ e, calculateBitSize 0 p = Except.error e)
    ∧ (∀ n m : Nat, n ≠ 0 → 1 ≤ m → 1 ≤ calculateHashCount n m) :=
  ⟨calculateHashCount_zero,
    fun p => ⟨_, by rw [calculateBitSize, if_pos rfl]⟩,
    fun n m hn hm => calculateHashCount_pos n m hn (by omega)⟩

/-- Witness for C10 at concrete arguments. -/
theorem calculateHashCount_no_validation_witness :
    calculateHashCount 0 9600 = 0
    ∧ ((1000 : Nat) ≠ 0 ∧ (1 : Nat) ≤ 9600 ∧ 1 ≤ calculateHashCount 1000 9600) :=
  ⟨calculateHashCount_no_validation.1 9600,
    by decide, by decide,
    calculateHashCount_no_validation.2.2 1000 9600 (by decide) (by decide)⟩

end BloomFilter

end bloom_filter
